import Mathlib

/-!
Verification development for the spatial transformer kernel in
`theano/tensor/nnet/spatialtf.py`.

The numeric kernel is embedded shallowly over exact rational arithmetic:
tensors are index functions into `ℚ`, the float-to-int64 cast is explicit
truncation toward zero, and the Python floored modulo is `qmod` below.
The graph operators `AbstractTransformerGrid` / `AbstractTransformerSampler`
merely wire `transformer_grid_impl` and `transformer_sampler_impl` into the
graph, so the entry point `spatialtf` is embedded as the composition of the
two implementations.  The automatic-differentiation engine
(`theano.tensor.grad` with `known_grads`) is not part of the given source
tree; the backward passes are therefore modelled from the specification and
related to the forward implementations by exact adjoint identities.
-/

namespace SpatialTransformer

/-- Truncation toward zero on rationals: the semantics of a float to int64
cast (`theano.tensor.cast(v, 'int64')` in the source). -/
def truncQ (q : ℚ) : ℤ := if 0 ≤ q then ⌊q⌋ else -⌊-q⌋

/-- Embedding of `theano.tensor.clip x lo hi`, i.e. `min (max x lo) hi`. -/
def clip (v lo hi : ℚ) : ℚ := min (max v lo) hi

/-- Python / numpy floored modulo on rationals: `a % b = a - b * ⌊a / b⌋`;
for a positive divisor the result lies in `[0, b)`. -/
def qmod (a b : ℚ) : ℚ := a - b * ⌊a / b⌋

/-- Element `i` of the `_linspace start stop num` sequence of the source:
`arange(num)[i] * ((stop - start) / (num - 1)) + start`. -/
def linspace (start stop : ℚ) (num i : ℕ) : ℚ :=
  (i : ℚ) * ((stop - start) / ((num : ℚ) - 1)) + start

/-- Embedding of `_meshgrid(height, width)` from `transformer_grid_impl`:
row `r` of the 3 x (outH*outW) homogeneous mesh at flattened position `p`
(row-major, `p = i * outW + j`).  Row 0 carries the x coordinates, row 1 the
y coordinates, row 2 is the appended row of ones. -/
def meshgrid (outH outW : ℕ) (r p : ℕ) : ℚ :=
  if r = 0 then linspace (-1) 1 outW (p % outW)
  else if r = 1 then linspace (-1) 1 outH (p / outW)
  else 1

/-- Embedding of `transformer_grid_impl`: the sampling grid, indexed
`(r, b, i, j)` after the dimshuffle/reshape of the source, is the batch
matrix product of `theta` (2 x 3) with the mesh (3 x (outH*outW)). -/
def transformer_grid_impl (outH outW : ℕ) (theta : ℕ → ℕ → ℕ → ℚ)
    (r b i j : ℕ) : ℚ :=
  ∑ k ∈ Finset.range 3, theta b r k * meshgrid outH outW k (i * outW + j)

/-- The border mode string accepted by the first branch of the sampler. -/
def nearestS : String := "nearest"

/-- The border mode string accepted by the second branch of the sampler. -/
def mirrorS : String := "mirror"

/-- The border mode string accepted by the third branch of the sampler. -/
def wrapS : String := "wrap"

/-- Border-policy adjustment of one floor coordinate, exactly the
`if/elif/elif/else raise` dispatch of `transformer_sampler_impl`
(lines 86-105): `nearest` clips to `[0, dim-1]`, `mirror` reflects via the
min-of-mods formula with period `2*(dim-1)`, `wrap` reduces modulo `dim`,
and any other mode is refused (`none`). -/
def borderAdjust (bm : String) (dimF : ℚ) (v : ℚ) : Option ℚ :=
  if bm = nearestS then some (clip v 0 (dimF - 1))
  else if bm = mirrorS then
    some (min (qmod v (2 * (dimF - 1))) (qmod (-v) (2 * (dimF - 1))))
  else if bm = wrapS then some (qmod v dimF)
  else none

/-- Border adjustment followed by the int64 cast of line 106 of the source. -/
def adjIdx (bm : String) (dim : ℕ) (v : ℚ) : ℤ :=
  truncQ ((borderAdjust bm (dim : ℚ) v).getD 0)

/-- Interpolation weight `wa = (x1_f - x) * (y1_f - y)` of the source, with
`x1_f = floor x + 1`, computed from the unadjusted floor coordinates. -/
def wa (x y : ℚ) : ℚ := ((⌊x⌋ : ℚ) + 1 - x) * ((⌊y⌋ : ℚ) + 1 - y)

/-- Interpolation weight `wb = (x1_f - x) * (y - y0_f)` of the source. -/
def wb (x y : ℚ) : ℚ := ((⌊x⌋ : ℚ) + 1 - x) * (y - (⌊y⌋ : ℚ))

/-- Interpolation weight `wc = (x - x0_f) * (y1_f - y)` of the source. -/
def wc (x y : ℚ) : ℚ := (x - (⌊x⌋ : ℚ)) * ((⌊y⌋ : ℚ) + 1 - y)

/-- Interpolation weight `wd = (x - x0_f) * (y - y0_f)` of the source. -/
def wd (x y : ℚ) : ℚ := (x - (⌊x⌋ : ℚ)) * (y - (⌊y⌋ : ℚ))

/-- Normalized-to-pixel coordinate scaling `(g + 1) / 2 * (dim - 1)`
(lines 71-75 of the source). -/
def pixCoord (dim : ℕ) (g : ℚ) : ℚ := (g + 1) / 2 * ((dim : ℚ) - 1)

/-- Flat gather index into the NHWC-flattened input:
`base + y * dim2 + x` with `base = n * (width * height)` and `dim2 = width`
(lines 111-120 of the source). -/
def gatherIdx (H W : ℕ) (n : ℕ) (yIdx xIdx : ℤ) : ℤ :=
  (n : ℤ) * ((W : ℤ) * (H : ℤ)) + yIdx * (W : ℤ) + xIdx

/-- Lookup in the NHWC-flattened view of the input (`inp_flat[k, c]`): the
input, stored NCHW as `inp n c y x`, is transposed to NHWC and reshaped to
`(N*H*W, C)`, so flat row `k` decomposes as `k = n*(H*W) + y*W + x`.
Out-of-range rows yield the junk value `0`; the in-bounds theorems below
show such rows are never gathered. -/
def inpFlat (N H W : ℕ) (inp : ℕ → ℕ → ℕ → ℕ → ℚ) (k : ℤ) (c : ℕ) : ℚ :=
  if 0 ≤ k ∧ k < ((N * (H * W) : ℕ) : ℤ) then
    inp (k.toNat / (H * W)) c (k.toNat % (H * W) / W) (k.toNat % W)
  else 0

/-- Flat index `idx_a = base_y0 + x0` of the source, from the pixel-space
coordinates `x`, `y` of one output location. -/
def idxA (bm : String) (H W n : ℕ) (x y : ℚ) : ℤ :=
  gatherIdx H W n (adjIdx bm H ((⌊y⌋ : ℚ))) (adjIdx bm W ((⌊x⌋ : ℚ)))

/-- Flat index `idx_b = base_y1 + x0` of the source. -/
def idxB (bm : String) (H W n : ℕ) (x y : ℚ) : ℤ :=
  gatherIdx H W n (adjIdx bm H ((⌊y⌋ : ℚ) + 1)) (adjIdx bm W ((⌊x⌋ : ℚ)))

/-- Flat index `idx_c = base_y0 + x1` of the source. -/
def idxC (bm : String) (H W n : ℕ) (x y : ℚ) : ℤ :=
  gatherIdx H W n (adjIdx bm H ((⌊y⌋ : ℚ))) (adjIdx bm W ((⌊x⌋ : ℚ) + 1))

/-- Flat index `idx_d = base_y1 + x1` of the source. -/
def idxD (bm : String) (H W n : ℕ) (x y : ℚ) : ℤ :=
  gatherIdx H W n (adjIdx bm H ((⌊y⌋ : ℚ) + 1)) (adjIdx bm W ((⌊x⌋ : ℚ) + 1))

/-- One output value of the bilinear sampler (lines 60-140 of the source,
for a recognized border mode), indexed NCHW as `(n, c, i, j)`: the grid
value is scaled to pixel space, the four corner rows are gathered from the
flattened input, and the output is the weighted sum
`wa * Ia + wb * Ib + wc * Ic + wd * Id`. -/
def samplerOut (N H W : ℕ) (inp grid : ℕ → ℕ → ℕ → ℕ → ℚ) (bm : String)
    (n c i j : ℕ) : ℚ :=
  wa (pixCoord W (grid 0 n i j)) (pixCoord H (grid 1 n i j)) *
      inpFlat N H W inp
        (idxA bm H W n (pixCoord W (grid 0 n i j)) (pixCoord H (grid 1 n i j))) c
    + wb (pixCoord W (grid 0 n i j)) (pixCoord H (grid 1 n i j)) *
        inpFlat N H W inp
          (idxB bm H W n (pixCoord W (grid 0 n i j)) (pixCoord H (grid 1 n i j))) c
    + wc (pixCoord W (grid 0 n i j)) (pixCoord H (grid 1 n i j)) *
        inpFlat N H W inp
          (idxC bm H W n (pixCoord W (grid 0 n i j)) (pixCoord H (grid 1 n i j))) c
    + wd (pixCoord W (grid 0 n i j)) (pixCoord H (grid 1 n i j)) *
        inpFlat N H W inp
          (idxD bm H W n (pixCoord W (grid 0 n i j)) (pixCoord H (grid 1 n i j))) c

/-- Error message raised by the `else` branch of the border-mode dispatch. -/
def borderModeMsg : String := "border_mode must be one of nearest, mirror, wrap"

/-- Embedding of `transformer_sampler_impl`: for a recognized border mode the
sampler output is produced; any other mode raises `ValueError` before any
output element is computed, embedded as `Except.error`. -/
def transformer_sampler_impl (N C H W : ℕ) (inp grid : ℕ → ℕ → ℕ → ℕ → ℚ)
    (bm : String) : Except String (ℕ → ℕ → ℕ → ℕ → ℚ) :=
  if bm = nearestS ∨ bm = mirrorS ∨ bm = wrapS then
    Except.ok (samplerOut N H W inp grid bm)
  else Except.error borderModeMsg

/-- A tensor value of arbitrary rank: a shape together with an index map.
The rank (`ndim`) is the length of the shape. -/
structure NdTensor where
  shape : List ℕ
  data : List ℕ → ℚ

/-- Shape component `i` of a tensor (total, with default 0). -/
def dimAt (t : NdTensor) (i : ℕ) : ℕ := t.shape.getD i 0

/-- Four-dimensional element access. -/
def at4 (t : NdTensor) (n c i j : ℕ) : ℚ := t.data [n, c, i, j]

/-- Message of a failed bare Python `assert`. -/
def assertMsg : String := "AssertionError"

/-- Embedding of the public entry point `spatialtf` (lines 12-26 of the
source): assert the ranks, derive the output size by the int64 cast of
`scale * dim`, generate the grid, and sample.  Faithful to the source,
`border_mode` is accepted but never forwarded: line 25 applies
`AbstractTransformerSampler()` to `(inp, grid)` only.  Modelled from the
spec for the part outside the given tree: the abstract sampler op
(`abstract_spatialtf.py`) then runs with its default border mode, which the
public interface of the spec gives as `nearest`. -/
def spatialtf (inp theta : NdTensor) (scale_height scale_width : ℚ)
    (border_mode : String) : Except String NdTensor :=
  if inp.shape.length = 4 then
    if theta.shape.length = 3 then
      Except.map
        (fun f =>
          NdTensor.mk
            [dimAt inp 0, dimAt inp 1,
              (truncQ (scale_height * (dimAt inp 2 : ℚ))).toNat,
              (truncQ (scale_width * (dimAt inp 3 : ℚ))).toNat]
            (fun ix =>
              match ix with
              | [n, c, i, j] => f n c i j
              | _ => 0))
        (transformer_sampler_impl (dimAt inp 0) (dimAt inp 1) (dimAt inp 2)
          (dimAt inp 3)
          (fun n c y x => inp.data [n, c, y, x])
          (transformer_grid_impl
            (truncQ (scale_height * (dimAt inp 2 : ℚ))).toNat
            (truncQ (scale_width * (dimAt inp 3 : ℚ))).toNat
            (fun b r k => theta.data [b, r, k]))
          nearestS)
    else Except.error assertMsg
  else Except.error assertMsg

/-- Modelled from the spec: the backward pass of the grid generator,
`transformer_gradt_impl`, whose core `theano.tensor.grad(None, theta,
known_grads={grid_out: grad_grid})` lives in the differentiation engine
outside the given source tree.  Following section 4.4 of the spec, it is
the affine-layer backward `gradTheta_b = gradGrid_b (2 x P) * mesh^T (P x 3)`
with the mesh rebuilt by the very `meshgrid` construction that
`transformer_grid_impl` uses; `theta` is accepted (mirroring the source
signature) but the result does not depend on it. -/
def transformer_gradt_impl (outH outW : ℕ) (theta : ℕ → ℕ → ℕ → ℚ)
    (gradGrid : ℕ → ℕ → ℕ → ℕ → ℚ) (b r k : ℕ) : ℚ :=
  ∑ i ∈ Finset.range outH, ∑ j ∈ Finset.range outW,
    gradGrid r b i j * meshgrid outH outW k (i * outW + j)

/-- Modelled from the spec: the gradient of the sampler with respect to the
input, produced in `transformer_gradi_impl` by `theano.tensor.grad` (outside
the given source tree).  Following section 4.3 of the spec it is a
scatter-add: the gradient at input pixel `(b, y, x)` (channel `c`) is the sum,
over every output location and each of the four corners, of
`weight * gradOutput` for the pairs whose flat gather index targets that
pixel. -/
def transformer_gradi_input (N H W outH outW : ℕ)
    (grid gradOut : ℕ → ℕ → ℕ → ℕ → ℚ) (bm : String) (b y x c : ℕ) : ℚ :=
  ∑ n ∈ Finset.range N, ∑ i ∈ Finset.range outH, ∑ j ∈ Finset.range outW,
    ((if gatherIdx H W b (y : ℤ) (x : ℤ)
          = idxA bm H W n (pixCoord W (grid 0 n i j)) (pixCoord H (grid 1 n i j))
        then wa (pixCoord W (grid 0 n i j)) (pixCoord H (grid 1 n i j)) *
          gradOut n c i j
        else 0)
      + (if gatherIdx H W b (y : ℤ) (x : ℤ)
            = idxB bm H W n (pixCoord W (grid 0 n i j)) (pixCoord H (grid 1 n i j))
          then wb (pixCoord W (grid 0 n i j)) (pixCoord H (grid 1 n i j)) *
            gradOut n c i j
          else 0)
      + (if gatherIdx H W b (y : ℤ) (x : ℤ)
            = idxC bm H W n (pixCoord W (grid 0 n i j)) (pixCoord H (grid 1 n i j))
          then wc (pixCoord W (grid 0 n i j)) (pixCoord H (grid 1 n i j)) *
            gradOut n c i j
          else 0)
      + (if gatherIdx H W b (y : ℤ) (x : ℤ)
            = idxD bm H W n (pixCoord W (grid 0 n i j)) (pixCoord H (grid 1 n i j))
          then wd (pixCoord W (grid 0 n i j)) (pixCoord H (grid 1 n i j)) *
            gradOut n c i j
          else 0))

/-- The 2 x 3 identity affine parameters `[[1,0,0],[0,1,0]]`, constant over
the batch. -/
def thetaId : ℕ → ℕ → ℕ → ℚ := fun _ r k =>
  if r = 0 ∧ k = 0 then 1 else if r = 1 ∧ k = 1 then 1 else 0

/-- Concrete 1 x 1 x 2 x 2 input with values `[[1,2],[3,4]]`. -/
def inpEx : NdTensor :=
  NdTensor.mk [1, 1, 2, 2]
    (fun ix =>
      match ix with
      | [0, 0, 0, 0] => 1
      | [0, 0, 0, 1] => 2
      | [0, 0, 1, 0] => 3
      | [0, 0, 1, 1] => 4
      | _ => 0)

/-- Concrete affine parameters `[[1,0,2],[0,1,0]]` (batch 1): a translation
by 2 in normalized x, pushing sample coordinates out of range so that the
border modes disagree. -/
def thetaEx : NdTensor :=
  NdTensor.mk [1, 2, 3]
    (fun ix =>
      match ix with
      | [0, 0, 0] => 1
      | [0, 0, 2] => 2
      | [0, 1, 1] => 1
      | _ => 0)

/-- The function view of the concrete input `inpEx`. -/
def inpExF : ℕ → ℕ → ℕ → ℕ → ℚ := fun n c y x => inpEx.data [n, c, y, x]

/-- The function view of the concrete parameters `thetaEx`. -/
def thetaExF : ℕ → ℕ → ℕ → ℚ := fun b r k => thetaEx.data [b, r, k]

/-- A border-mode string distinct from the three recognized ones. -/
def otherS : String := "reflect101"

/-!  Helper lemmas. -/

theorem truncQ_coe_nat (n : ℕ) : truncQ (n : ℚ) = (n : ℤ) := by
  unfold truncQ
  rw [if_pos (by positivity)]
  exact Int.floor_natCast n

theorem sampler_ok (N C H W : ℕ) (inp grid : ℕ → ℕ → ℕ → ℕ → ℚ) :
    transformer_sampler_impl N C H W inp grid nearestS
      = Except.ok (samplerOut N H W inp grid nearestS) := by
  unfold transformer_sampler_impl
  rw [if_pos (Or.inl rfl)]

theorem spatialtf_at4 (inp theta : NdTensor) (sh sw : ℚ) (bm : String)
    (n c i j : ℕ) (h4 : inp.shape.length = 4) (h3 : theta.shape.length = 3) :
    Except.map (fun t => at4 t n c i j) (spatialtf inp theta sh sw bm)
      = Except.ok
          (samplerOut (dimAt inp 0) (dimAt inp 2) (dimAt inp 3)
            (fun n c y x => inp.data [n, c, y, x])
            (transformer_grid_impl (truncQ (sh * (dimAt inp 2 : ℚ))).toNat
              (truncQ (sw * (dimAt inp 3 : ℚ))).toNat
              (fun b r k => theta.data [b, r, k]))
            nearestS n c i j) := by
  unfold spatialtf
  rw [if_pos h4, if_pos h3, sampler_ok]
  rfl

theorem spatialtf_shape (inp theta : NdTensor) (sh sw : ℚ) (bm : String)
    (h4 : inp.shape.length = 4) (h3 : theta.shape.length = 3) :
    Except.map (fun t => t.shape) (spatialtf inp theta sh sw bm)
      = Except.ok
          [dimAt inp 0, dimAt inp 1, (truncQ (sh * (dimAt inp 2 : ℚ))).toNat,
            (truncQ (sw * (dimAt inp 3 : ℚ))).toNat] := by
  unfold spatialtf
  rw [if_pos h4, if_pos h3, sampler_ok]
  rfl

/-!  Claim C3: the four interpolation weights always partition unity and lie
in `[0, 1]`.  The weight definitions `wa`, `wb`, `wc`, `wd` take no border
mode and are computed from the unadjusted floor coordinates, exactly as in
the source (lines 130-133), which is where `samplerOut` reads them. -/

/-- C3: for every output location (any pixel coordinates `x`, `y`, hence any
grid values and any border mode), the four interpolation weights of the
bilinear sampler satisfy `wa + wb + wc + wd = 1` and each lies in `[0, 1]`;
they are computed from the unadjusted floor coordinates, independent of the
border policy. -/
theorem weights_sum_one_and_bounded (x y : ℚ) :
    wa x y + wb x y + wc x y + wd x y = 1
      ∧ 0 ≤ wa x y ∧ wa x y ≤ 1 ∧ 0 ≤ wb x y ∧ wb x y ≤ 1
      ∧ 0 ≤ wc x y ∧ wc x y ≤ 1 ∧ 0 ≤ wd x y ∧ wd x y ≤ 1 := by
  have hx1 : (⌊x⌋ : ℚ) ≤ x := Int.floor_le x
  have hx2 : x < (⌊x⌋ : ℚ) + 1 := Int.lt_floor_add_one x
  have hy1 : (⌊y⌋ : ℚ) ≤ y := Int.floor_le y
  have hy2 : y < (⌊y⌋ : ℚ) + 1 := Int.lt_floor_add_one y
  unfold wa wb wc wd
  refine ⟨by ring, ?_, ?_, ?_, ?_, ?_, ?_, ?_, ?_⟩ <;> nlinarith

/-- C4: for an input width of 4 and pixel-space x-coordinate 4.3, the
border-adjusted gather indices are: `nearest` maps both `x0` and `x1` to 3;
`wrap` maps `x0 = floor 4.3 mod 4` to 0 and `x1 = 5 mod 4` to 1; `mirror`
maps them through `min (v mod 2*(W-1)) (-v mod 2*(W-1))` to 2 and 1. -/
theorem border_modes_at_x43 :
    adjIdx nearestS 4 ((⌊(43 : ℚ) / 10⌋ : ℚ)) = 3
      ∧ adjIdx nearestS 4 ((⌊(43 : ℚ) / 10⌋ : ℚ) + 1) = 3
      ∧ adjIdx wrapS 4 ((⌊(43 : ℚ) / 10⌋ : ℚ)) = 0
      ∧ adjIdx wrapS 4 ((⌊(43 : ℚ) / 10⌋ : ℚ) + 1) = 1
      ∧ adjIdx mirrorS 4 ((⌊(43 : ℚ) / 10⌋ : ℚ)) = 2
      ∧ adjIdx mirrorS 4 ((⌊(43 : ℚ) / 10⌋ : ℚ) + 1) = 1 := by
  refine ⟨?_, ?_, ?_, ?_, ?_, ?_⟩ <;>
    norm_num +decide [adjIdx, borderAdjust, nearestS, mirrorS, wrapS, truncQ,
      clip, qmod]

/-- C8: the sampler rejects every border-mode value other than `nearest`,
`mirror` and `wrap` with the `ValueError` of lines 103-105, embedded as
`Except.error`; no output function is produced, so no numeric work on the
input happens and no default mode is substituted. -/
theorem sampler_unknown_mode_is_error (N C H W : ℕ)
    (inp grid : ℕ → ℕ → ℕ → ℕ → ℚ) (bm : String)
    (h1 : bm ≠ nearestS) (h2 : bm ≠ mirrorS) (h3 : bm ≠ wrapS) :
    transformer_sampler_impl N C H W inp grid bm = Except.error borderModeMsg := by
  unfold transformer_sampler_impl
  rw [if_neg]
  rintro (h | h | h)
  · exact h1 h
  · exact h2 h
  · exact h3 h

/-- Witness for C8 at the concrete unknown mode string `reflect101`. -/
theorem sampler_unknown_mode_is_error_witness :
    (otherS ≠ nearestS ∧ otherS ≠ mirrorS ∧ otherS ≠ wrapS)
      ∧ transformer_sampler_impl 1 1 2 2 (fun _ _ _ _ => 0) (fun _ _ _ _ => 0)
          otherS = Except.error borderModeMsg :=
  ⟨⟨by decide, by decide, by decide⟩,
    sampler_unknown_mode_is_error 1 1 2 2 (fun _ _ _ _ => 0) (fun _ _ _ _ => 0)
      otherS (by decide) (by decide) (by decide)⟩

/-- C7 (amended): `spatialtf` rejects a call with input rank different from
4 or theta rank different from 3 immediately, as the bare `assert`
statements of lines 14 and 17; no result is produced.  (The batch sizes of
input and theta are, however, not compared at call time; see the
counterexample below.) -/
theorem spatialtf_rank_violation_rejected (inp theta : NdTensor) (sh sw : ℚ)
    (bm : String) (h : inp.shape.length ≠ 4 ∨ theta.shape.length ≠ 3) :
    spatialtf inp theta sh sw bm = Except.error assertMsg := by
  unfold spatialtf
  rcases h with h | h
  · rw [if_neg h]
  · by_cases h4 : inp.shape.length = 4
    · rw [if_pos h4, if_neg h]
    · rw [if_neg h4]

/-- Witness for C7 at a concrete rank-3 input tensor. -/
theorem spatialtf_rank_violation_rejected_witness :
    ((NdTensor.mk [1, 2, 2] (fun _ => 0)).shape.length ≠ 4
        ∨ (NdTensor.mk [1, 2, 3] (fun _ => 0)).shape.length ≠ 3)
      ∧ spatialtf (NdTensor.mk [1, 2, 2] (fun _ => 0))
          (NdTensor.mk [1, 2, 3] (fun _ => 0)) 1 1 nearestS
        = Except.error assertMsg :=
  ⟨Or.inl (by decide),
    spatialtf_rank_violation_rejected (NdTensor.mk [1, 2, 2] (fun _ => 0))
      (NdTensor.mk [1, 2, 3] (fun _ => 0)) 1 1 nearestS (Or.inl (by decide))⟩

/-- C7 counterexample: a call with mismatched batch sizes (input batch 2,
theta batch 3) is not rejected at call time; `spatialtf` returns a result
tensor of shape `[2, 1, 2, 2]` instead of failing. -/
theorem spatialtf_batch_mismatch_not_rejected :
    Except.map (fun t => t.shape)
        (spatialtf (NdTensor.mk [2, 1, 2, 2] (fun _ => 0))
          (NdTensor.mk [3, 2, 3] (fun _ => 0)) 1 1 nearestS)
      = Except.ok [2, 1, 2, 2] := by
  rw [spatialtf_shape (NdTensor.mk [2, 1, 2, 2] (fun _ => 0))
      (NdTensor.mk [3, 2, 3] (fun _ => 0)) 1 1 nearestS (by decide) (by decide)]
  norm_num [dimAt, truncQ]
  rfl

set_option maxHeartbeats 4000000 in
/-- C1 (code bug): the caller-supplied border mode never reaches the
sampler.  With the input `[[1,2],[3,4]]` and the out-of-range affine
`[[1,0,2],[0,1,0]]`, calling `spatialtf` with border mode `wrap` yields the
value 2 at output position `(0,0,0,1)` (the `nearest`-mode sampling), while
`transformer_sampler_impl` applied to the same input, the same generated
grid and the requested `wrap` mode yields 1 there: line 25 of the source
applies the sampler op to `(inp, grid)` only, dropping `border_mode`. -/
theorem spatialtf_ignores_caller_border_mode :
    Except.map (fun t => at4 t 0 0 0 1) (spatialtf inpEx thetaEx 1 1 wrapS)
        = Except.ok 2
      ∧ Except.map (fun f => f 0 0 0 1)
          (transformer_sampler_impl 1 1 2 2 inpExF
            (transformer_grid_impl 2 2 thetaExF) wrapS)
        = Except.ok 1 := by
  constructor
  · rw [spatialtf_at4 inpEx thetaEx 1 1 wrapS 0 0 0 1 (by decide) (by decide)]
    have h2 : (truncQ ((1 : ℚ) * (dimAt inpEx 2 : ℚ))).toNat = 2 := by
      norm_num [dimAt, inpEx, truncQ, List.getD]
      rfl
    have h3 : (truncQ ((1 : ℚ) * (dimAt inpEx 3 : ℚ))).toNat = 2 := by
      norm_num [dimAt, inpEx, truncQ, List.getD]
      rfl
    rw [h2, h3]
    norm_num +decide [samplerOut, transformer_grid_impl, dimAt, List.getD,
      nearestS, mirrorS, wrapS, Finset.sum_range_succ, meshgrid, linspace,
      pixCoord, idxA, idxB, idxC, idxD, adjIdx, borderAdjust, truncQ, clip,
      qmod, gatherIdx, inpFlat, wa, wb, wc, wd, inpEx, thetaEx]
  · norm_num +decide [transformer_sampler_impl, transformer_grid_impl,
      samplerOut, nearestS, mirrorS, wrapS, Finset.sum_range_succ, meshgrid,
      linspace, pixCoord, idxA, idxB, idxC, idxD, adjIdx, borderAdjust,
      truncQ, clip, qmod, gatherIdx, inpFlat, wa, wb, wc, wd, inpEx, thetaEx,
      inpExF, thetaExF, Except.map]

theorem pix_linspace (d i : ℕ) (hd : 2 ≤ d) :
    pixCoord d (linspace (-1) 1 d i) = (i : ℚ) := by
  have hd' : (2 : ℚ) ≤ (d : ℚ) := by exact_mod_cast hd
  have h1 : ((d : ℚ) - 1) ≠ 0 := by linarith
  unfold pixCoord linspace
  field_simp
  ring

theorem grid_thetaId_x (H W i j n : ℕ) (hj : j < W) :
    transformer_grid_impl H W thetaId 0 n i j = linspace (-1) 1 W j := by
  have hW : 0 < W := lt_of_le_of_lt (Nat.zero_le j) hj
  unfold transformer_grid_impl thetaId meshgrid
  rw [Finset.sum_range_succ, Finset.sum_range_succ, Finset.sum_range_succ,
    Finset.sum_range_zero]
  norm_num
  rw [Nat.mul_add_mod', Nat.mod_eq_of_lt hj]

theorem grid_thetaId_y (H W i j n : ℕ) (hj : j < W) :
    transformer_grid_impl H W thetaId 1 n i j = linspace (-1) 1 H i := by
  have hW : 0 < W := lt_of_le_of_lt (Nat.zero_le j) hj
  unfold transformer_grid_impl thetaId meshgrid
  rw [Finset.sum_range_succ, Finset.sum_range_succ, Finset.sum_range_succ,
    Finset.sum_range_zero]
  norm_num
  have e : (i * W + j) / W = i := by
    rw [Nat.mul_comm i W, Nat.mul_add_div hW, Nat.div_eq_of_lt hj, Nat.add_zero]
  rw [e]

theorem adjIdx_nearest_nat (d k : ℕ) (hk : k < d) :
    adjIdx nearestS d ((k : ℤ) : ℚ) = (k : ℤ) := by
  have hk1 : ((k : ℤ) : ℚ) ≤ (d : ℚ) - 1 := by
    have : (k : ℚ) + 1 ≤ (d : ℚ) := by exact_mod_cast hk
    push_cast
    linarith
  unfold adjIdx borderAdjust clip truncQ
  rw [if_pos rfl]
  simp only [Option.getD_some]
  rw [max_eq_left (by positivity), min_eq_left hk1, if_pos (by positivity)]
  push_cast
  exact Int.floor_intCast k

theorem inpFlat_gather (N H W n i j c : ℕ) (inp : ℕ → ℕ → ℕ → ℕ → ℚ)
    (hn : n < N) (hi : i < H) (hj : j < W) :
    inpFlat N H W inp (gatherIdx H W n (i : ℤ) (j : ℤ)) c = inp n c i j := by
  have hW : 0 < W := lt_of_le_of_lt (Nat.zero_le j) hj
  have hHW : 0 < H * W := Nat.mul_pos (lt_of_le_of_lt (Nat.zero_le i) hi) hW
  have hr : i * W + j < H * W := by
    calc i * W + j < i * W + W := by omega
      _ = (i + 1) * W := by ring
      _ ≤ H * W := Nat.mul_le_mul_right W hi
  have hlt : n * (H * W) + (i * W + j) < N * (H * W) := by
    calc n * (H * W) + (i * W + j) < n * (H * W) + H * W := by omega
      _ = (n + 1) * (H * W) := by ring
      _ ≤ N * (H * W) := Nat.mul_le_mul_right (H * W) hn
  have hkey : gatherIdx H W n (i : ℤ) (j : ℤ)
      = ((n * (H * W) + (i * W + j) : ℕ) : ℤ) := by
    unfold gatherIdx
    push_cast
    ring
  rw [hkey]
  unfold inpFlat
  rw [if_pos ⟨by positivity, by exact_mod_cast hlt⟩, Int.toNat_natCast]
  have e1 : (n * (H * W) + (i * W + j)) / (H * W) = n := by
    rw [Nat.mul_comm n (H * W), Nat.mul_add_div hHW, Nat.div_eq_of_lt hr,
      Nat.add_zero]
  have e2 : (n * (H * W) + (i * W + j)) % (H * W) = i * W + j := by
    rw [Nat.mul_add_mod', Nat.mod_eq_of_lt hr]
  have e3 : (i * W + j) / W = i := by
    rw [Nat.mul_comm i W, Nat.mul_add_div hW, Nat.div_eq_of_lt hj,
      Nat.add_zero]
  have e4 : (n * (H * W) + (i * W + j)) % W = j := by
    rw [← Nat.mod_mod_of_dvd _ (dvd_mul_left W H), e2, Nat.mul_add_mod',
      Nat.mod_eq_of_lt hj]
  rw [e1, e2, e3, e4]

/-- C2: sampling with the identity affine `[[1,0,0],[0,1,0]]`, output size
equal to the input size (scale 1) and border mode `nearest` reproduces the
input exactly, for every input with `H, W >= 2`: the generated grid lands
exactly on the original pixel coordinates, so `wa = 1` and the other three
weights vanish. -/
theorem identity_affine_roundtrip (N C H W : ℕ) (inp : ℕ → ℕ → ℕ → ℕ → ℚ)
    (n c i j : ℕ) (hH : 2 ≤ H) (hW : 2 ≤ W) (hn : n < N) (hi : i < H)
    (hj : j < W) :
    Except.map (fun f => f n c i j)
        (transformer_sampler_impl N C H W inp
          (transformer_grid_impl H W thetaId) nearestS)
      = Except.ok (inp n c i j) := by
  rw [sampler_ok]
  show Except.ok (samplerOut N H W inp (transformer_grid_impl H W thetaId)
    nearestS n c i j) = Except.ok (inp n c i j)
  congr 1
  unfold samplerOut
  rw [grid_thetaId_x H W i j n hj, grid_thetaId_y H W i j n hj,
    pix_linspace W j hW, pix_linspace H i hH]
  have hwa : wa (j : ℚ) (i : ℚ) = 1 := by
    unfold wa
    rw [Int.floor_natCast, Int.floor_natCast]
    push_cast
    ring
  have hwb : wb (j : ℚ) (i : ℚ) = 0 := by
    unfold wb
    rw [Int.floor_natCast, Int.floor_natCast]
    push_cast
    ring
  have hwc : wc (j : ℚ) (i : ℚ) = 0 := by
    unfold wc
    rw [Int.floor_natCast, Int.floor_natCast]
    push_cast
    ring
  have hwd : wd (j : ℚ) (i : ℚ) = 0 := by
    unfold wd
    rw [Int.floor_natCast, Int.floor_natCast]
    push_cast
    ring
  rw [hwa, hwb, hwc, hwd]
  have hA : idxA nearestS H W n (j : ℚ) (i : ℚ)
      = gatherIdx H W n (i : ℤ) (j : ℤ) := by
    unfold idxA
    rw [Int.floor_natCast, Int.floor_natCast,
      adjIdx_nearest_nat H i hi, adjIdx_nearest_nat W j hj]
  rw [hA, inpFlat_gather N H W n i j c inp hn hi hj]
  ring

/-- Witness for C2: the concrete 1 x 1 x 2 x 2 input `[[1,2],[3,4]]` is
reproduced exactly at all four positions. -/
theorem identity_affine_roundtrip_witness :
    ((2 : ℕ) ≤ 2 ∧ (0 : ℕ) < 1 ∧ (0 : ℕ) < 2 ∧ (1 : ℕ) < 2)
      ∧ Except.map (fun f => f 0 0 0 0)
            (transformer_sampler_impl 1 1 2 2 inpExF
              (transformer_grid_impl 2 2 thetaId) nearestS)
          = Except.ok 1
      ∧ Except.map (fun f => f 0 0 0 1)
            (transformer_sampler_impl 1 1 2 2 inpExF
              (transformer_grid_impl 2 2 thetaId) nearestS)
          = Except.ok 2
      ∧ Except.map (fun f => f 0 0 1 0)
            (transformer_sampler_impl 1 1 2 2 inpExF
              (transformer_grid_impl 2 2 thetaId) nearestS)
          = Except.ok 3
      ∧ Except.map (fun f => f 0 0 1 1)
            (transformer_sampler_impl 1 1 2 2 inpExF
              (transformer_grid_impl 2 2 thetaId) nearestS)
          = Except.ok 4 :=
  ⟨⟨le_refl 2, Nat.zero_lt_one, by omega, by omega⟩,
    (identity_affine_roundtrip 1 1 2 2 inpExF 0 0 0 0 (le_refl 2) (le_refl 2)
        Nat.zero_lt_one (by omega) (by omega)).trans (by rfl),
    (identity_affine_roundtrip 1 1 2 2 inpExF 0 0 0 1 (le_refl 2) (le_refl 2)
        Nat.zero_lt_one (by omega) (by omega)).trans (by rfl),
    (identity_affine_roundtrip 1 1 2 2 inpExF 0 0 1 0 (le_refl 2) (le_refl 2)
        Nat.zero_lt_one (by omega) (by omega)).trans (by rfl),
    (identity_affine_roundtrip 1 1 2 2 inpExF 0 0 1 1 (le_refl 2) (le_refl 2)
        Nat.zero_lt_one (by omega) (by omega)).trans (by rfl)⟩

theorem truncQ_mem (q : ℚ) (d : ℕ) (h0 : 0 ≤ q) (h1 : q < (d : ℚ)) :
    0 ≤ truncQ q ∧ truncQ q ≤ (d : ℤ) - 1 := by
  unfold truncQ
  rw [if_pos h0]
  constructor
  · exact Int.le_floor.mpr (by exact_mod_cast h0)
  · have : ⌊q⌋ < (d : ℤ) := Int.floor_lt.mpr (by exact_mod_cast h1)
    omega

theorem qmod_mem (a b : ℚ) (hb : 0 < b) : 0 ≤ qmod a b ∧ qmod a b < b := by
  unfold qmod
  constructor
  · have h := Int.floor_le (a / b)
    have h2 : (⌊a / b⌋ : ℚ) * b ≤ a := by
      rw [← le_div_iff hb]
      exact h
    linarith
  · have h := Int.lt_floor_add_one (a / b)
    have h2 : a < ((⌊a / b⌋ : ℚ) + 1) * b := by
      rw [← div_lt_iff hb]
      exact h
    nlinarith

theorem qmod_eq_fract (a b : ℚ) (hb : b ≠ 0) :
    qmod a b = b * Int.fract (a / b) := by
  unfold qmod Int.fract
  rw [mul_sub, mul_comm b (a / b), div_mul_cancel₀ a hb]

theorem qmod_add_qmod_neg (a b : ℚ) (hb : 0 < b) (h : qmod a b ≠ 0) :
    qmod a b + qmod (-a) b = b := by
  have hb' : b ≠ 0 := ne_of_gt hb
  rw [qmod_eq_fract a b hb', qmod_eq_fract (-a) b hb', neg_div]
  have hf : Int.fract (a / b) ≠ 0 := by
    intro hf0
    apply h
    rw [qmod_eq_fract a b hb', hf0, mul_zero]
  rw [Int.fract_neg hf]
  ring

theorem adjIdx_mem (bm : String)
    (hbm : bm = nearestS ∨ bm = mirrorS ∨ bm = wrapS) (d : ℕ) (hd : 2 ≤ d)
    (v : ℚ) : 0 ≤ adjIdx bm d v ∧ adjIdx bm d v ≤ (d : ℤ) - 1 := by
  have hd2 : (2 : ℚ) ≤ (d : ℚ) := by exact_mod_cast hd
  have hd1 : (1 : ℚ) ≤ (d : ℚ) - 1 := by linarith
  unfold adjIdx borderAdjust
  rcases hbm with h | h | h
  · rw [h, if_pos rfl]
    simp only [Option.getD_some]
    apply truncQ_mem
    · unfold clip
      exact le_min (le_max_right v 0) (by linarith)
    · unfold clip
      calc min (max v 0) ((d : ℚ) - 1) ≤ (d : ℚ) - 1 := min_le_right _ _
        _ < (d : ℚ) := by linarith
  · rw [h, if_neg (by decide), if_pos rfl]
    simp only [Option.getD_some]
    have hm : 0 < 2 * ((d : ℚ) - 1) := by linarith
    have h1 := qmod_mem v (2 * ((d : ℚ) - 1)) hm
    have h2 := qmod_mem (-v) (2 * ((d : ℚ) - 1)) hm
    apply truncQ_mem
    · exact le_min h1.1 h2.1
    · have hle : min (qmod v (2 * ((d : ℚ) - 1))) (qmod (-v) (2 * ((d : ℚ) - 1)))
          ≤ (d : ℚ) - 1 := by
        rcases eq_or_ne (qmod v (2 * ((d : ℚ) - 1))) 0 with h0 | h0
        · calc min (qmod v (2 * ((d : ℚ) - 1)))
                (qmod (-v) (2 * ((d : ℚ) - 1)))
              ≤ qmod v (2 * ((d : ℚ) - 1)) := min_le_left _ _
            _ = 0 := h0
            _ ≤ (d : ℚ) - 1 := by linarith
        · have hsum := qmod_add_qmod_neg v (2 * ((d : ℚ) - 1)) hm h0
          rcases le_total (qmod v (2 * ((d : ℚ) - 1)))
              (qmod (-v) (2 * ((d : ℚ) - 1))) with hle | hle
          · rw [min_eq_left hle]
            linarith
          · rw [min_eq_right hle]
            linarith
      linarith
  · rw [h, if_neg (by decide), if_neg (by decide), if_pos rfl]
    simp only [Option.getD_some]
    have hdq : (0 : ℚ) < (d : ℚ) := by linarith
    have h1 := qmod_mem v (d : ℚ) hdq
    exact truncQ_mem _ _ h1.1 h1.2

theorem gatherIdx_mem (N H W n : ℕ) (hn : n < N) (yI xI : ℤ)
    (hy0 : 0 ≤ yI) (hy1 : yI ≤ (H : ℤ) - 1) (hx0 : 0 ≤ xI)
    (hx1 : xI ≤ (W : ℤ) - 1) :
    0 ≤ gatherIdx H W n yI xI
      ∧ gatherIdx H W n yI xI ≤ ((N * (H * W) : ℕ) : ℤ) - 1 := by
  unfold gatherIdx
  have hn' : (n : ℤ) ≤ (N : ℤ) - 1 := by
    have hnz : (n : ℤ) < (N : ℤ) := by exact_mod_cast hn
    omega
  have hWnn : (0 : ℤ) ≤ (W : ℤ) := Int.natCast_nonneg W
  have hWH : (0 : ℤ) ≤ (W : ℤ) * (H : ℤ) := by positivity
  constructor
  · have t1 : (0 : ℤ) ≤ (n : ℤ) * ((W : ℤ) * (H : ℤ)) := by positivity
    have t2 : (0 : ℤ) ≤ yI * (W : ℤ) := mul_nonneg hy0 hWnn
    linarith
  · push_cast
    have t1 := mul_le_mul_of_nonneg_right hn' hWH
    have t2 := mul_le_mul_of_nonneg_right hy1 hWnn
    nlinarith

/-- C10: for a recognized border mode, an input with `H, W >= 2`, a batch
index `n < N` and any grid values at an output location, all four flat
gather indices of the sampler lie in `[0, N*H*W - 1]`: the gather from the
NHWC-flattened input never reads out of bounds. -/
theorem gather_indices_in_bounds (bm : String) (N H W n i j : ℕ)
    (grid : ℕ → ℕ → ℕ → ℕ → ℚ)
    (hbm : bm = nearestS ∨ bm = mirrorS ∨ bm = wrapS)
    (hH : 2 ≤ H) (hW : 2 ≤ W) (hn : n < N) :
    (0 ≤ idxA bm H W n (pixCoord W (grid 0 n i j)) (pixCoord H (grid 1 n i j))
        ∧ idxA bm H W n (pixCoord W (grid 0 n i j)) (pixCoord H (grid 1 n i j))
          ≤ ((N * (H * W) : ℕ) : ℤ) - 1)
      ∧ (0 ≤ idxB bm H W n (pixCoord W (grid 0 n i j))
              (pixCoord H (grid 1 n i j))
          ∧ idxB bm H W n (pixCoord W (grid 0 n i j))
              (pixCoord H (grid 1 n i j)) ≤ ((N * (H * W) : ℕ) : ℤ) - 1)
      ∧ (0 ≤ idxC bm H W n (pixCoord W (grid 0 n i j))
              (pixCoord H (grid 1 n i j))
          ∧ idxC bm H W n (pixCoord W (grid 0 n i j))
              (pixCoord H (grid 1 n i j)) ≤ ((N * (H * W) : ℕ) : ℤ) - 1)
      ∧ (0 ≤ idxD bm H W n (pixCoord W (grid 0 n i j))
              (pixCoord H (grid 1 n i j))
          ∧ idxD bm H W n (pixCoord W (grid 0 n i j))
              (pixCoord H (grid 1 n i j)) ≤ ((N * (H * W) : ℕ) : ℤ) - 1) := by
  refine ⟨?_, ?_, ?_, ?_⟩ <;>
    [unfold idxA; unfold idxB; unfold idxC; unfold idxD] <;>
    · have hy := adjIdx_mem bm hbm H hH
      have hx := adjIdx_mem bm hbm W hW
      exact gatherIdx_mem N H W n hn _ _ (hy _).1 (hy _).2 (hx _).1 (hx _).2

/-- Witness for C10 at a concrete configuration. -/
theorem gather_indices_in_bounds_witness :
    ((nearestS = nearestS ∨ nearestS = mirrorS ∨ nearestS = wrapS)
        ∧ (2 : ℕ) ≤ 2 ∧ (0 : ℕ) < 1)
      ∧ (0 ≤ idxA nearestS 2 2 0 (pixCoord 2 ((fun _ _ _ _ => (5 : ℚ)) 0 0 0 0))
              (pixCoord 2 ((fun _ _ _ _ => (5 : ℚ)) 1 0 0 0))
          ∧ idxA nearestS 2 2 0
              (pixCoord 2 ((fun _ _ _ _ => (5 : ℚ)) 0 0 0 0))
              (pixCoord 2 ((fun _ _ _ _ => (5 : ℚ)) 1 0 0 0))
            ≤ ((1 * (2 * 2) : ℕ) : ℤ) - 1) :=
  ⟨⟨Or.inl rfl, le_refl 2, Nat.zero_lt_one⟩,
    ((gather_indices_in_bounds nearestS 1 2 2 0 0 0 (fun _ _ _ _ => (5 : ℚ))
        (Or.inl rfl) (le_refl 2) (le_refl 2) Nat.zero_lt_one).1)⟩

theorem sum_unflatten (m n : ℕ) (g : ℕ → ℕ → ℚ) :
    ∑ k ∈ Finset.range (m * n), g (k / n) (k % n)
      = ∑ y ∈ Finset.range m, ∑ x ∈ Finset.range n, g y x := by
  rcases Nat.eq_zero_or_pos n with hn | hn
  · subst hn
    simp
  induction m with
  | zero => simp
  | succ m ih =>
    rw [Finset.sum_range_succ, ← ih, Nat.succ_mul, Finset.range_eq_Ico,
      ← Finset.sum_Ico_consecutive _ (Nat.zero_le (m * n))
        (Nat.le_add_right (m * n) n),
      ← Finset.range_eq_Ico, Finset.sum_Ico_eq_sum_range]
    congr 1
    rw [show m * n + n - m * n = n from by omega]
    apply Finset.sum_congr rfl
    intro x hx
    rw [Finset.mem_range] at hx
    have e1 : (m * n + x) / n = m := by
      rw [Nat.mul_comm m n, Nat.mul_add_div hn, Nat.div_eq_of_lt hx,
        Nat.add_zero]
    have e2 : (m * n + x) % n = x := by
      rw [Nat.mul_add_mod', Nat.mod_eq_of_lt hx]
    rw [e1, e2]

theorem sum_swap_badc (s t u v : Finset ℕ) (f : ℕ → ℕ → ℕ → ℕ → ℚ) :
    (∑ a ∈ s, ∑ b ∈ t, ∑ c ∈ u, ∑ d ∈ v, f a b c d)
      = ∑ b ∈ t, ∑ a ∈ s, ∑ d ∈ v, ∑ c ∈ u, f a b c d := by
  calc (∑ a ∈ s, ∑ b ∈ t, ∑ c ∈ u, ∑ d ∈ v, f a b c d)
      = ∑ b ∈ t, ∑ a ∈ s, ∑ c ∈ u, ∑ d ∈ v, f a b c d := Finset.sum_comm
    _ = ∑ b ∈ t, ∑ a ∈ s, ∑ d ∈ v, ∑ c ∈ u, f a b c d :=
        Finset.sum_congr rfl fun b _ =>
          Finset.sum_congr rfl fun a _ => Finset.sum_comm

theorem sum_swap22 (s t u v : Finset ℕ) (f : ℕ → ℕ → ℕ → ℕ → ℚ) :
    (∑ a ∈ s, ∑ b ∈ t, ∑ c ∈ u, ∑ d ∈ v, f a b c d)
      = ∑ c ∈ u, ∑ d ∈ v, ∑ a ∈ s, ∑ b ∈ t, f a b c d := by
  calc (∑ a ∈ s, ∑ b ∈ t, ∑ c ∈ u, ∑ d ∈ v, f a b c d)
      = ∑ a ∈ s, ∑ c ∈ u, ∑ b ∈ t, ∑ d ∈ v, f a b c d :=
        Finset.sum_congr rfl fun a _ => Finset.sum_comm
    _ = ∑ c ∈ u, ∑ a ∈ s, ∑ b ∈ t, ∑ d ∈ v, f a b c d := Finset.sum_comm
    _ = ∑ c ∈ u, ∑ a ∈ s, ∑ d ∈ v, ∑ b ∈ t, f a b c d :=
        Finset.sum_congr rfl fun c _ =>
          Finset.sum_congr rfl fun a _ => Finset.sum_comm
    _ = ∑ c ∈ u, ∑ d ∈ v, ∑ a ∈ s, ∑ b ∈ t, f a b c d :=
        Finset.sum_congr rfl fun c _ => Finset.sum_comm

theorem grid_flatten (outH outW : ℕ) (theta : ℕ → ℕ → ℕ → ℚ) (r b : ℕ)
    (g : ℕ → ℕ → ℚ) :
    (∑ i ∈ Finset.range outH, ∑ j ∈ Finset.range outW,
        g i j * transformer_grid_impl outH outW theta r b i j)
      = ∑ p ∈ Finset.range (outH * outW),
          g (p / outW) (p % outW) *
            ∑ k ∈ Finset.range 3, theta b r k * meshgrid outH outW k p := by
  unfold transformer_grid_impl
  rw [← sum_unflatten outH outW (fun i j => g i j *
    ∑ k ∈ Finset.range 3, theta b r k * meshgrid outH outW k (i * outW + j))]
  apply Finset.sum_congr rfl
  intro p hp
  rw [Nat.div_add_mod' p outW]

/-- C5 (spec-modelled backward): the theta gradient returned by
`transformer_gradt_impl` is exactly the affine-layer backward of the
forward `transformer_grid_impl` built on the identical `meshgrid`
construction: pairing any `gradGrid` with the generated grid equals pairing
the returned `gradTheta` with `theta` (the adjoint identity that
characterizes the gradient of the theta-linear grid map), and the returned
gradient does not depend on the value of `theta`. -/
theorem gridgen_theta_grad_correct (N outH outW : ℕ)
    (theta thetaAlt : ℕ → ℕ → ℕ → ℚ) (gradGrid : ℕ → ℕ → ℕ → ℕ → ℚ) :
    ((∑ r ∈ Finset.range 2, ∑ b ∈ Finset.range N, ∑ i ∈ Finset.range outH,
        ∑ j ∈ Finset.range outW,
          gradGrid r b i j * transformer_grid_impl outH outW theta r b i j)
      = ∑ b ∈ Finset.range N, ∑ r ∈ Finset.range 2, ∑ k ∈ Finset.range 3,
          transformer_gradt_impl outH outW theta gradGrid b r k * theta b r k)
    ∧ transformer_gradt_impl outH outW theta gradGrid
        = transformer_gradt_impl outH outW thetaAlt gradGrid := by
  constructor
  · have hL : ∀ r b : ℕ, (∑ i ∈ Finset.range outH, ∑ j ∈ Finset.range outW,
        gradGrid r b i j * transformer_grid_impl outH outW theta r b i j)
        = ∑ p ∈ Finset.range (outH * outW), ∑ k ∈ Finset.range 3,
            gradGrid r b (p / outW) (p % outW) *
              (theta b r k * meshgrid outH outW k p) := by
      intro r b
      rw [grid_flatten outH outW theta r b (fun i j => gradGrid r b i j)]
      apply Finset.sum_congr rfl
      intro p hp
      rw [Finset.mul_sum]
    have hR : ∀ b r k : ℕ, transformer_gradt_impl outH outW theta gradGrid b r k
        = ∑ p ∈ Finset.range (outH * outW),
            gradGrid r b (p / outW) (p % outW) * meshgrid outH outW k p := by
      intro b r k
      unfold transformer_gradt_impl
      rw [← sum_unflatten outH outW
        (fun i j => gradGrid r b i j * meshgrid outH outW k (i * outW + j))]
      apply Finset.sum_congr rfl
      intro p hp
      rw [Nat.div_add_mod' p outW]
    simp only [hL, hR]
    rw [sum_swap_badc]
    apply Finset.sum_congr rfl
    intro b _
    apply Finset.sum_congr rfl
    intro r _
    apply Finset.sum_congr rfl
    intro k _
    rw [Finset.sum_mul]
    apply Finset.sum_congr rfl
    intro p _
    ring
  · rfl

theorem gather_as_sum (N H W : ℕ) (inp : ℕ → ℕ → ℕ → ℕ → ℚ) (c : ℕ)
    (idx : ℤ) (h0 : 0 ≤ idx) (h1 : idx < ((N * (H * W) : ℕ) : ℤ)) :
    inpFlat N H W inp idx c
      = ∑ b ∈ Finset.range N, ∑ y ∈ Finset.range H, ∑ x ∈ Finset.range W,
          (if gatherIdx H W b (y : ℤ) (x : ℤ) = idx then inp b c y x else 0) := by
  have hKlt : idx.toNat < N * (H * W) := by omega
  have hsummand : ∀ b y x : ℕ,
      (if gatherIdx H W b (y : ℤ) (x : ℤ) = idx then inp b c y x else 0)
        = (if b * (H * W) + (y * W + x) = idx.toNat
            then inp b c y x else 0) := by
    intro b y x
    refine if_congr ?_ rfl rfl
    have hg : gatherIdx H W b (y : ℤ) (x : ℤ)
        = ((b * (H * W) + (y * W + x) : ℕ) : ℤ) := by
      unfold gatherIdx
      push_cast
      ring
    rw [hg]
    omega
  simp only [hsummand]
  have hinner : ∀ b : ℕ,
      (∑ y ∈ Finset.range H, ∑ x ∈ Finset.range W,
          (if b * (H * W) + (y * W + x) = idx.toNat then inp b c y x else 0))
        = ∑ q ∈ Finset.range (H * W),
            (if b * (H * W) + q = idx.toNat
              then inp b c (q / W) (q % W) else 0) := by
    intro b
    rw [← sum_unflatten H W (fun y x =>
      if b * (H * W) + (y * W + x) = idx.toNat then inp b c y x else 0)]
    apply Finset.sum_congr rfl
    intro q hq
    rw [Nat.div_add_mod' q W]
  simp only [hinner]
  rw [← sum_unflatten N (H * W) (fun b q =>
    if b * (H * W) + q = idx.toNat then inp b c (q / W) (q % W) else 0)]
  have hfin : ∀ k ∈ Finset.range (N * (H * W)),
      ((if k / (H * W) * (H * W) + k % (H * W) = idx.toNat
          then inp (k / (H * W)) c (k % (H * W) / W) (k % (H * W) % W) else 0)
        = if k = idx.toNat
            then inp (k / (H * W)) c (k % (H * W) / W) (k % W) else 0) := by
    intro k hk
    rw [Nat.div_add_mod' k (H * W), Nat.mod_mod_of_dvd k (dvd_mul_left W H)]
  rw [Finset.sum_congr rfl hfin, Finset.sum_ite_eq' (Finset.range (N * (H * W)))
    idx.toNat (fun k => inp (k / (H * W)) c (k % (H * W) / W) (k % W)),
    if_pos (Finset.mem_range.mpr hKlt)]
  unfold inpFlat
  rw [if_pos ⟨h0, h1⟩]

theorem sum_swap_triple (N1 o1 o2 N2 d1 d2 : ℕ)
    (T : ℕ → ℕ → ℕ → ℕ → ℕ → ℕ → ℚ) :
    (∑ n ∈ Finset.range N1, ∑ i ∈ Finset.range o1, ∑ j ∈ Finset.range o2,
        ∑ b ∈ Finset.range N2, ∑ y ∈ Finset.range d1, ∑ x ∈ Finset.range d2,
          T n i j b y x)
      = ∑ b ∈ Finset.range N2, ∑ y ∈ Finset.range d1, ∑ x ∈ Finset.range d2,
          ∑ n ∈ Finset.range N1, ∑ i ∈ Finset.range o1, ∑ j ∈ Finset.range o2,
            T n i j b y x := by
  calc (∑ n ∈ Finset.range N1, ∑ i ∈ Finset.range o1, ∑ j ∈ Finset.range o2,
        ∑ b ∈ Finset.range N2, ∑ y ∈ Finset.range d1, ∑ x ∈ Finset.range d2,
          T n i j b y x)
      = ∑ n ∈ Finset.range N1, ∑ i ∈ Finset.range o1, ∑ j ∈ Finset.range o2,
          ∑ b ∈ Finset.range N2, ∑ q ∈ Finset.range (d1 * d2),
            T n i j b (q / d2) (q % d2) := by
        refine Finset.sum_congr rfl fun n _ => Finset.sum_congr rfl fun i _ =>
          Finset.sum_congr rfl fun j _ => Finset.sum_congr rfl fun b _ => ?_
        exact (sum_unflatten d1 d2 (fun y x => T n i j b y x)).symm
    _ = ∑ n ∈ Finset.range N1, ∑ p ∈ Finset.range (o1 * o2),
          ∑ b ∈ Finset.range N2, ∑ q ∈ Finset.range (d1 * d2),
            T n (p / o2) (p % o2) b (q / d2) (q % d2) := by
        refine Finset.sum_congr rfl fun n _ => ?_
        exact (sum_unflatten o1 o2 (fun i j => ∑ b ∈ Finset.range N2,
          ∑ q ∈ Finset.range (d1 * d2), T n i j b (q / d2) (q % d2))).symm
    _ = ∑ b ∈ Finset.range N2, ∑ q ∈ Finset.range (d1 * d2),
          ∑ n ∈ Finset.range N1, ∑ p ∈ Finset.range (o1 * o2),
            T n (p / o2) (p % o2) b (q / d2) (q % d2) :=
        sum_swap22 (Finset.range N1) (Finset.range (o1 * o2))
          (Finset.range N2) (Finset.range (d1 * d2))
          (fun n p b q => T n (p / o2) (p % o2) b (q / d2) (q % d2))
    _ = ∑ b ∈ Finset.range N2, ∑ q ∈ Finset.range (d1 * d2),
          ∑ n ∈ Finset.range N1, ∑ i ∈ Finset.range o1, ∑ j ∈ Finset.range o2,
            T n i j b (q / d2) (q % d2) := by
        refine Finset.sum_congr rfl fun b _ => Finset.sum_congr rfl fun q _ =>
          Finset.sum_congr rfl fun n _ => ?_
        exact sum_unflatten o1 o2 (fun i j => T n i j b (q / d2) (q % d2))
    _ = ∑ b ∈ Finset.range N2, ∑ y ∈ Finset.range d1, ∑ x ∈ Finset.range d2,
          ∑ n ∈ Finset.range N1, ∑ i ∈ Finset.range o1, ∑ j ∈ Finset.range o2,
            T n i j b y x := by
        refine Finset.sum_congr rfl fun b _ => ?_
        exact sum_unflatten d1 d2 (fun y x => ∑ n ∈ Finset.range N1,
          ∑ i ∈ Finset.range o1, ∑ j ∈ Finset.range o2, T n i j b y x)

theorem corner_adjoint (N H W outH outW : ℕ) (inp gOut : ℕ → ℕ → ℕ → ℕ → ℚ)
    (c : ℕ) (F : ℕ → ℕ → ℕ → ℤ) (Wt : ℕ → ℕ → ℕ → ℚ)
    (hF : ∀ n, n < N → ∀ i j, 0 ≤ F n i j
      ∧ F n i j < ((N * (H * W) : ℕ) : ℤ)) :
    (∑ n ∈ Finset.range N, ∑ i ∈ Finset.range outH, ∑ j ∈ Finset.range outW,
        gOut n c i j * (Wt n i j * inpFlat N H W inp (F n i j) c))
      = ∑ b ∈ Finset.range N, ∑ y ∈ Finset.range H, ∑ x ∈ Finset.range W,
          (∑ n ∈ Finset.range N, ∑ i ∈ Finset.range outH,
            ∑ j ∈ Finset.range outW,
              (if gatherIdx H W b (y : ℤ) (x : ℤ) = F n i j
                then Wt n i j * gOut n c i j else 0))
            * inp b c y x := by
  have L1 : (∑ n ∈ Finset.range N, ∑ i ∈ Finset.range outH,
      ∑ j ∈ Finset.range outW,
        gOut n c i j * (Wt n i j * inpFlat N H W inp (F n i j) c))
      = ∑ n ∈ Finset.range N, ∑ i ∈ Finset.range outH,
          ∑ j ∈ Finset.range outW, ∑ b ∈ Finset.range N,
            ∑ y ∈ Finset.range H, ∑ x ∈ Finset.range W,
              (if gatherIdx H W b (y : ℤ) (x : ℤ) = F n i j
                then Wt n i j * gOut n c i j * inp b c y x else 0) := by
    apply Finset.sum_congr rfl
    intro n hn
    apply Finset.sum_congr rfl
    intro i _
    apply Finset.sum_congr rfl
    intro j _
    rw [gather_as_sum N H W inp c (F n i j)
      (hF n (Finset.mem_range.mp hn) i j).1 (hF n (Finset.mem_range.mp hn) i j).2]
    simp only [Finset.mul_sum, mul_ite, mul_zero]
    apply Finset.sum_congr rfl
    intro b _
    apply Finset.sum_congr rfl
    intro y _
    apply Finset.sum_congr rfl
    intro x _
    split_ifs with h
    · ring
    · rfl
  rw [L1, sum_swap_triple N outH outW N H W
    (fun n i j b y x => if gatherIdx H W b (y : ℤ) (x : ℤ) = F n i j
      then Wt n i j * gOut n c i j * inp b c y x else 0)]
  apply Finset.sum_congr rfl
  intro b _
  apply Finset.sum_congr rfl
  intro y _
  apply Finset.sum_congr rfl
  intro x _
  rw [Finset.sum_mul]
  apply Finset.sum_congr rfl
  intro n _
  rw [Finset.sum_mul]
  apply Finset.sum_congr rfl
  intro i _
  rw [Finset.sum_mul]
  apply Finset.sum_congr rfl
  intro j _
  rw [ite_mul, zero_mul]

/-- C6 (spec-modelled backward): the scatter-add input gradient
`transformer_gradi_input` (the sum of `weight * gradOutput` over every
output location and corner whose flat gather index targets the pixel, never
an overwrite) is exactly the adjoint of the forward sampler in the input:
pairing any upstream gradient with the sampler output equals pairing the
accumulated gradient with the input, per channel, for any recognized border
mode and `H, W >= 2`.  This is the defining property of the gradient of the
input-linear forward map, so summation over coinciding gather targets is
forced. -/
theorem sampler_input_grad_adjoint (N C H W outH outW : ℕ)
    (inp grid gOut : ℕ → ℕ → ℕ → ℕ → ℚ) (bm : String)
    (hbm : bm = nearestS ∨ bm = mirrorS ∨ bm = wrapS)
    (hH : 2 ≤ H) (hW : 2 ≤ W) (c : ℕ) :
    (∑ n ∈ Finset.range N, ∑ i ∈ Finset.range outH, ∑ j ∈ Finset.range outW,
        gOut n c i j * samplerOut N H W inp grid bm n c i j)
      = ∑ b ∈ Finset.range N, ∑ y ∈ Finset.range H, ∑ x ∈ Finset.range W,
          transformer_gradi_input N H W outH outW grid gOut bm b y x c
            * inp b c y x := by
  have hb : ∀ n : ℕ, n < N → ∀ v w : ℚ,
      0 ≤ gatherIdx H W n (adjIdx bm H v) (adjIdx bm W w)
        ∧ gatherIdx H W n (adjIdx bm H v) (adjIdx bm W w)
          < ((N * (H * W) : ℕ) : ℤ) := by
    intro n hn v w
    have hy := adjIdx_mem bm hbm H hH v
    have hx := adjIdx_mem bm hbm W hW w
    have hg := gatherIdx_mem N H W n hn _ _ hy.1 hy.2 hx.1 hx.2
    exact ⟨hg.1, by omega⟩
  have hFA : ∀ n, n < N → ∀ i j,
      0 ≤ idxA bm H W n (pixCoord W (grid 0 n i j)) (pixCoord H (grid 1 n i j))
        ∧ idxA bm H W n (pixCoord W (grid 0 n i j))
            (pixCoord H (grid 1 n i j)) < ((N * (H * W) : ℕ) : ℤ) := by
    intro n hn i j
    exact hb n hn _ _
  have hFB : ∀ n, n < N → ∀ i j,
      0 ≤ idxB bm H W n (pixCoord W (grid 0 n i j)) (pixCoord H (grid 1 n i j))
        ∧ idxB bm H W n (pixCoord W (grid 0 n i j))
            (pixCoord H (grid 1 n i j)) < ((N * (H * W) : ℕ) : ℤ) := by
    intro n hn i j
    exact hb n hn _ _
  have hFC : ∀ n, n < N → ∀ i j,
      0 ≤ idxC bm H W n (pixCoord W (grid 0 n i j)) (pixCoord H (grid 1 n i j))
        ∧ idxC bm H W n (pixCoord W (grid 0 n i j))
            (pixCoord H (grid 1 n i j)) < ((N * (H * W) : ℕ) : ℤ) := by
    intro n hn i j
    exact hb n hn _ _
  have hFD : ∀ n, n < N → ∀ i j,
      0 ≤ idxD bm H W n (pixCoord W (grid 0 n i j)) (pixCoord H (grid 1 n i j))
        ∧ idxD bm H W n (pixCoord W (grid 0 n i j))
            (pixCoord H (grid 1 n i j)) < ((N * (H * W) : ℕ) : ℤ) := by
    intro n hn i j
    exact hb n hn _ _
  unfold samplerOut transformer_gradi_input
  simp only [mul_add, add_mul, Finset.sum_add_distrib]
  rw [corner_adjoint N H W outH outW inp gOut c
      (fun n i j => idxA bm H W n (pixCoord W (grid 0 n i j))
        (pixCoord H (grid 1 n i j)))
      (fun n i j => wa (pixCoord W (grid 0 n i j)) (pixCoord H (grid 1 n i j)))
      hFA,
    corner_adjoint N H W outH outW inp gOut c
      (fun n i j => idxB bm H W n (pixCoord W (grid 0 n i j))
        (pixCoord H (grid 1 n i j)))
      (fun n i j => wb (pixCoord W (grid 0 n i j)) (pixCoord H (grid 1 n i j)))
      hFB,
    corner_adjoint N H W outH outW inp gOut c
      (fun n i j => idxC bm H W n (pixCoord W (grid 0 n i j))
        (pixCoord H (grid 1 n i j)))
      (fun n i j => wc (pixCoord W (grid 0 n i j)) (pixCoord H (grid 1 n i j)))
      hFC,
    corner_adjoint N H W outH outW inp gOut c
      (fun n i j => idxD bm H W n (pixCoord W (grid 0 n i j))
        (pixCoord H (grid 1 n i j)))
      (fun n i j => wd (pixCoord W (grid 0 n i j)) (pixCoord H (grid 1 n i j)))
      hFD]

/-- Witness for C6 at a concrete configuration. -/
theorem sampler_input_grad_adjoint_witness :
    ((nearestS = nearestS ∨ nearestS = mirrorS ∨ nearestS = wrapS)
        ∧ (2 : ℕ) ≤ 2)
      ∧ (∑ n ∈ Finset.range 1, ∑ i ∈ Finset.range 1, ∑ j ∈ Finset.range 1,
          (fun _ _ _ _ => (1 : ℚ)) n 0 i j *
            samplerOut 1 2 2 (fun _ _ _ _ => (1 : ℚ)) (fun _ _ _ _ => (0 : ℚ))
              nearestS n 0 i j)
        = ∑ b ∈ Finset.range 1, ∑ y ∈ Finset.range 2, ∑ x ∈ Finset.range 2,
            transformer_gradi_input 1 2 2 1 1 (fun _ _ _ _ => (0 : ℚ))
                (fun _ _ _ _ => (1 : ℚ)) nearestS b y x 0 *
              (fun _ _ _ _ => (1 : ℚ)) b 0 y x :=
  ⟨⟨Or.inl rfl, le_refl 2⟩,
    sampler_input_grad_adjoint 1 1 2 2 1 1 (fun _ _ _ _ => 1)
      (fun _ _ _ _ => 0) (fun _ _ _ _ => 1) nearestS (Or.inl rfl)
      (le_refl 2) (le_refl 2) 0⟩

end SpatialTransformer

